import Mathlib

/-!
# Verification of `tools/pdl/src/bin/generate-canonical-tests.rs`

A shallow embedding of the canonical-test-vector generator.  The Rust tool
reads a JSON document describing packets and their test vectors, selects the
vectors whose effective packet name is in a compiled-in allow-list, and emits
one Rust unit test per selected vector.  Panics (`assert!`, `unwrap`,
`panic!`) are modelled as `Except.error` carrying the panic message; the
successfully generated token stream is modelled structurally by `TestUnit`.

Strings are modelled as their character sequences; all inputs the theorems
below touch are ASCII, where Rust's byte-based `str::len`/`chunks_exact`
agree with the character-based view.
-/

namespace CanonicalTests

/-- Model of a `serde_json::Value` as consumed by the tool.  JSON numbers are
stored as serde stores them: non-negative integers that fit in `u64` in
`posInt`, negative integers that fit in `i64` as `negInt n` (denoting `-n`,
with `1 ≤ n`), and every other number (fractional, or outside 64-bit range,
e.g. `2^64`) as an `f64`, modelled by the payload-free `float` marker since no
claim depends on a float's value or printed form. -/
inductive Value where
  | null : Value
  | bool (b : Bool) : Value
  | posInt (n : Nat) : Value
  | negInt (n : Nat) : Value
  | float : Value
  | str (s : String) : Value
  | arr (elems : List Value) : Value
  | obj (entries : List (String × Value)) : Value

/-- Model of `serde_json::Value::as_u64`: only the non-negative-integer (`u64`)
variant yields a value; negative integers and floats yield `None`. -/
def Value.asU64 : Value → Option Nat
  | .posInt n => some n
  | _ => none

/-- Model of `serde_json::Value::as_object`: the entries of an object, in the map's
iteration order, and `None` for every other variant. -/
def Value.asObject : Value → Option (List (String × Value))
  | .obj kvs => some kvs
  | _ => none

/-- serde_json's escaping of one character inside a JSON string literal. -/
def jsonEscapeChar (c : Char) : List Char :=
  if c = '"' then ['\\', '"']
  else if c = '\\' then ['\\', '\\']
  else if c = '\x08' then ['\\', 'b']
  else if c = '\x0c' then ['\\', 'f']
  else if c = '\n' then ['\\', 'n']
  else if c = '\r' then ['\\', 'r']
  else if c = '\t' then ['\\', 't']
  else if c.toNat < 32 then
    ['\\', 'u', '0', '0', Nat.digitChar (c.toNat / 16), Nat.digitChar (c.toNat % 16)]
  else [c]

/-- Rust's `Debug` ({:?}) rendering of a string: quoted, with quotes and
backslashes escaped.  (Debug additionally escapes control and some unicode
characters; no theorem below applies it to such a string.) -/
def rustDebugStr (s : String) : String :=
  "\"" ++ String.mk (s.toList.flatMap fun c =>
    if c = '"' then ['\\', '"'] else if c = '\\' then ['\\', '\\'] else [c]) ++ "\""

/-- serde_json's escaped rendering of a JSON string literal. -/
def jsonQuote (s : String) : String :=
  "\"" ++ String.mk (s.toList.flatMap jsonEscapeChar) ++ "\""

mutual

/-- serde_json's compact `Display` for a `Value`, used by the tool's panic
messages (`{}` formatting of `test_vector.unpacked` and of field values).
Floats are abstracted (see `Value`); no theorem displays a float. -/
def Value.display : Value → String
  | .null => "null"
  | .bool true => "true"
  | .bool false => "false"
  | .posInt n => Nat.repr n
  | .negInt n => "-" ++ Nat.repr n
  | .float => "<f64>"
  | .str s => jsonQuote s
  | .arr elems => "[" ++ String.intercalate "," (displayList elems) ++ "]"
  | .obj kvs => "\x7b" ++ String.intercalate "," (displayEntries kvs) ++ "\x7d"

/-- Compact `Display` of the elements of a JSON array, in order. -/
def displayList : List Value → List String
  | [] => []
  | v :: vs => v.display :: displayList vs

/-- Compact `Display` of the `"key":value` entries of a JSON object, in
order. -/
def displayEntries : List (String × Value) → List String
  | [] => []
  | kv :: kvs => (jsonQuote kv.1 ++ ":" ++ kv.2.display) :: displayEntries kvs

end

/-- Model of `struct TestVector` of the tool: `packed` hex string, `unpacked` JSON
value, optional per-vector `packet` name override. -/
structure TestVector where
  packed : String
  unpacked : Value
  packet : Option String

/-- Model of `struct Packet` of the tool: the group name (JSON key `packet`) and its
ordered list of test vectors. -/
structure Packet where
  name : String
  tests : List TestVector

/-- Is `c` a hexadecimal digit character (`0-9`, `a-f`, `A-F`)? -/
def isHexDigitChar (c : Char) : Bool :=
  (decide (48 ≤ c.toNat) && decide (c.toNat ≤ 57)) ||
  (decide (97 ≤ c.toNat) && decide (c.toNat ≤ 102)) ||
  (decide (65 ≤ c.toNat) && decide (c.toNat ≤ 70))

/-- Numeric value of a hexadecimal digit character (meaningful only when
`isHexDigitChar` holds). -/
def hexDigitVal (c : Char) : Nat :=
  if 97 ≤ c.toNat then c.toNat - 87
  else if 65 ≤ c.toNat then c.toNat - 55
  else c.toNat - 48

/-- Models `syn::parse_str::<syn::LitInt>(&format!("0x{c1}{c2}")).unwrap()`
for a two-character chunk: the chunk parses as the body of a Rust hexadecimal
integer literal when it consists of hex digits and underscores (underscores
are Rust digit separators) with at least one digit; `0x__` has no digit and
is rejected by the lexer.  (The real lexer additionally tolerates a trailing
literal suffix or whitespace; those characters never occur in the inputs of
the theorems below, and this model maps them to failure.) -/
def litIntChunkVal (c1 c2 : Char) : Option Nat :=
  if isHexDigitChar c1 && isHexDigitChar c2 then some (16 * hexDigitVal c1 + hexDigitVal c2)
  else if isHexDigitChar c1 && c2 == '_' then some (hexDigitVal c1)
  else if c1 == '_' && isHexDigitChar c2 then some (hexDigitVal c2)
  else none

/-- The `chunks_exact(2)` loop of `hexadecimal_to_vec`: each 2-character
chunk is parsed as a Rust hex literal in order; the first unparsable chunk
panics (the `unwrap` on `syn::parse_str`).  Like `chunks_exact`, a trailing
odd character is dropped (unreachable behind the even-length assert). -/
def chunkPairs : List Char → Except String (List Nat)
  | c1 :: c2 :: rest =>
    match litIntChunkVal c1 c2 with
    | some b => (chunkPairs rest).map (fun bs => b :: bs)
    | none => .error ("invalid hexadecimal literal: 0x" ++ String.mk [c1, c2])
  | _ => .ok []

/-- Model of `fn hexadecimal_to_vec`: asserts the hex string has even length (panic
message is the assert's fixed text), then converts each 2-character chunk to
a byte value; the result models the emitted `vec![...]` byte literal. -/
def hexadecimalToVec (hex : String) : Except String (List Nat) :=
  if hex.toList.length % 2 = 0 then chunkPairs hex.toList
  else .error "Expects an even number of hex digits"

/-- One emitted test unit, modelling the fixed `quote!` template

    `#[test] fn <name>() { let packed = <packedBytes>;`
    `  let actual = <moduleName>::<packetType>::parse(&packed).unwrap();`
    `  <assert_eq!(actual.<getter>(), <value>); for each assertion> }`

slot by slot. -/
structure TestUnit where
  name : String
  packedBytes : List Nat
  packetType : String
  moduleName : String
  assertions : List (String × Nat)

/-- The generated test name: `format_ident!("{}_vector_{}_0x{}", packet_name,
i + 1, &test_vector.packed)` with `ordinal = i + 1`. -/
def testName (packetName : String) (ordinal : Nat) (packed : String) : String :=
  packetName ++ "_vector_" ++ Nat.repr ordinal ++ "_0x" ++ packed

/-- The effective packet name of a vector:
`test_vector.packet.as_deref().unwrap_or(packet.name.as_str())`. -/
def effectiveName (groupName : String) (v : TestVector) : String :=
  v.packet.getD groupName

/-- The per-entry closure of the assertion map (lines 60–69 of the source):
a `(key, value)` entry of `unpacked` becomes the `assert_eq!(actual.get_<key>(),
<value>)` slot, panicking when the value is not a `u64`
(`panic!("Expected u64 for {key:?} key, got {value}")`). -/
def assertionFor (kv : String × Value) : Except String (String × Nat) :=
  match kv.2.asU64 with
  | some n => pure ("get_" ++ kv.1, n)
  | none =>
    throw ("Expected u64 for " ++ rustDebugStr kv.1 ++ " key, got " ++ kv.2.display)

/-- The per-vector body of the `generate_unit_tests` loop, after the
allow-list check: build the test name, convert `packed`, unwrap `unpacked`
as an object (`panic!("Expected test vector object, found: {}")`), and map
each key/value entry to an `assert_eq!` slot via `assertionFor`.
`i` is the 0-based `enumerate` index of the vector in its group. -/
def emitVector (moduleName packetName : String) (i : Nat) (v : TestVector) :
    Except String TestUnit := do
  let name := testName packetName (i + 1) v.packed
  let packed ← hexadecimalToVec v.packed
  let typeName := packetName ++ "Packet"
  match v.unpacked.asObject with
  | none => throw ("Expected test vector object, found: " ++ v.unpacked.display)
  | some object => do
    let assertions ← object.mapM assertionFor
    pure { name, packedBytes := packed, packetType := typeName, moduleName, assertions }

/-- The inner `for (i, test_vector) in packet.tests.iter().enumerate()` loop
of `generate_unit_tests` for one group, starting at index `i`: a vector whose
effective name is not in `packetNames` is skipped (the `eprintln!` log is a
side effect without bearing on the result and is not modelled); a selected
vector is emitted, and any panic aborts the whole run. -/
def runVectors (moduleName : String) (packetNames : List String) (groupName : String) :
    Nat → List TestVector → Except String (List TestUnit)
  | _, [] => .ok []
  | i, v :: rest =>
    if packetNames.contains (effectiveName groupName v) then do
      let u ← emitVector moduleName (effectiveName groupName v) i v
      let us ← runVectors moduleName packetNames groupName (i + 1) rest
      pure (u :: us)
    else
      runVectors moduleName packetNames groupName (i + 1) rest

/-- Model of `fn generate_unit_tests` after JSON loading: the outer loop over packet
groups, accumulating the emitted units in document order.  The final
`println!("{code}")` of the concatenated units is I/O and not modelled. -/
def generateUnitTests : List Packet → List String → String → Except String (List TestUnit)
  | [], _, _ => .ok []
  | p :: rest, packetNames, moduleName => do
    let us ← runVectors moduleName packetNames p.name 0 p.tests
    let vs ← generateUnitTests rest packetNames moduleName
    pure (us ++ vs)

/-- The Vector Selector of spec §4.2, written from the spec's words: the
ordered `(effective name, 0-based index, vector)` triples of the vectors
whose effective name is in the allow-list, for one group starting at `i`. -/
def selectedGroup (packetNames : List String) (groupName : String) :
    Nat → List TestVector → List (String × Nat × TestVector)
  | _, [] => []
  | i, v :: rest =>
    if packetNames.contains (effectiveName groupName v) then
      (effectiveName groupName v, i, v) :: selectedGroup packetNames groupName (i + 1) rest
    else
      selectedGroup packetNames groupName (i + 1) rest

/-- The selection over the whole document, preserving outer packet order and
inner vector order. -/
def selectedVectors (packets : List Packet) (packetNames : List String) :
    List (String × Nat × TestVector) :=
  (packets.map fun p => selectedGroup packetNames p.name 0 p.tests).flatten

/-- The compiled-in allow-list passed by `main` to `generate_unit_tests`. -/
def mainPacketNames : List String := ["Packet_Scalar_Field"]

/-- Model of `fn main` after command-line handling: runs the pipeline with the fixed
allow-list `["Packet_Scalar_Field"]`. -/
def mainGenerate (packets : List Packet) (moduleName : String) :
    Except String (List TestUnit) :=
  generateUnitTests packets mainPacketNames moduleName

/-- Re-encoding of one byte value back to two (lowercase) hexadecimal
digits, the spec's round-trip direction for §8's first law. -/
def byteToHexChars (b : Nat) : List Char :=
  [Nat.digitChar (b / 16), Nat.digitChar (b % 16)]

/-! ## Supporting lemmas -/

theorem except_bind_ok {ε α β : Type} (a : α) (f : α → Except ε β) :
    (Except.ok a >>= f) = f a := rfl

theorem except_bind_error {ε α β : Type} (e : ε) (f : α → Except ε β) :
    ((Except.error e : Except ε α) >>= f) = Except.error e := rfl

theorem except_pure_eq {ε α : Type} (a : α) : (pure a : Except ε α) = Except.ok a := rfl

/-- Decimal decoding of a digit-character list, the semantic inverse used to
show `Nat.repr` is injective. -/
def decDecode (cs : List Char) : Nat :=
  cs.foldl (fun a c => 10 * a + (c.toNat - 48)) 0

theorem toDigitsCore_shift (b fuel n : Nat) (ds : List Char) :
    Nat.toDigitsCore b fuel n ds = Nat.toDigitsCore b fuel n [] ++ ds := by
  induction fuel generalizing n ds with
  | zero => simp [Nat.toDigitsCore]
  | succ f ih =>
    simp only [Nat.toDigitsCore]
    by_cases h : n / b = 0
    · simp [h]
    · simp only [h, if_false]
      rw [ih (n / b) (Nat.digitChar (n % b) :: ds), ih (n / b) [Nat.digitChar (n % b)]]
      simp

theorem decDecode_append (l : List Char) (c : Char) :
    decDecode (l ++ [c]) = 10 * decDecode l + (c.toNat - 48) := by
  simp [decDecode, List.foldl_append]

theorem digitChar_decode : ∀ d < 10, (Nat.digitChar d).toNat - 48 = d := by decide

theorem decDecode_toDigitsCore :
    ∀ fuel n, n < fuel → decDecode (Nat.toDigitsCore 10 fuel n []) = n := by
  intro fuel
  induction fuel with
  | zero => intro n h; omega
  | succ f ih =>
    intro n h
    simp only [Nat.toDigitsCore]
    by_cases h10 : n / 10 = 0
    · have hn : n < 10 := by omega
      have hd := digitChar_decode n hn
      simp [h10, decDecode, Nat.mod_eq_of_lt hn, hd]
    · have hn0 : 0 < n := by
        rcases Nat.eq_zero_or_pos n with rfl | h0
        · simp at h10
        · exact h0
      have hlt : n / 10 < f := by
        have h1 : n / 10 < n := Nat.div_lt_self hn0 (by omega)
        omega
      have hm := digitChar_decode (n % 10) (Nat.mod_lt n (by omega))
      simp only [h10, if_false]
      rw [toDigitsCore_shift, decDecode_append, ih (n / 10) hlt]
      omega

theorem natRepr_inj {m n : Nat} (h : Nat.repr m = Nat.repr n) : m = n := by
  have hd : Nat.toDigitsCore 10 (m + 1) m [] = Nat.toDigitsCore 10 (n + 1) n [] := by
    have h2 := congrArg String.data h
    simpa [Nat.repr, Nat.toDigits, List.asString] using h2
  have hm := decDecode_toDigitsCore (m + 1) m (by omega)
  have hn := decDecode_toDigitsCore (n + 1) n (by omega)
  rw [hd, hn] at hm
  exact hm.symm

theorem string_data_append (s t : String) : (s ++ t).data = s.data ++ t.data := rfl

theorem testName_ordinal_inj {p s : String} {a b : Nat}
    (h : testName p a s = testName p b s) : a = b := by
  have hd := congrArg String.data h
  simp only [testName, string_data_append, List.append_assoc] at hd
  have h1 := List.append_cancel_left hd
  have h2 := List.append_cancel_left h1
  have h3 := List.append_cancel_right h2
  exact natRepr_inj (String.ext h3)

theorem char_eq_of_toNat_eq {c d : Char} (h : c.toNat = d.toNat) : c = d := by
  have h2 := congrArg Char.ofNat h
  simpa [Char.ofNat_toNat] using h2

theorem isHexDigitChar_cases {P : Char → Prop}
    (hP : ∀ c ∈ "0123456789abcdefABCDEF".toList, P c) :
    ∀ c : Char, isHexDigitChar c = true → P c := by
  intro c h
  have hr : (48 ≤ c.toNat ∧ c.toNat ≤ 57) ∨ (97 ≤ c.toNat ∧ c.toNat ≤ 102) ∨
      (65 ≤ c.toNat ∧ c.toNat ≤ 70) := by
    simpa [isHexDigitChar, Bool.or_eq_true, Bool.and_eq_true, decide_eq_true_eq,
      or_assoc] using h
  obtain ⟨n, hn⟩ : ∃ n, c.toNat = n := ⟨_, rfl⟩
  have hc : c = Char.ofNat n := by rw [← hn, Char.ofNat_toNat]
  rw [hn] at hr
  subst hc
  rcases hr with ⟨h1, h2⟩ | ⟨h1, h2⟩ | ⟨h1, h2⟩ <;> interval_cases n <;> exact hP _ (by decide)

theorem hexDigitVal_lt : ∀ c : Char, isHexDigitChar c = true → hexDigitVal c < 16 :=
  isHexDigitChar_cases (by decide)

theorem digitChar_hexDigitVal :
    ∀ c : Char, isHexDigitChar c = true → Nat.digitChar (hexDigitVal c) = c.toLower :=
  isHexDigitChar_cases (by decide)

theorem litIntChunkVal_hex {c1 c2 : Char} (h1 : isHexDigitChar c1 = true)
    (h2 : isHexDigitChar c2 = true) :
    litIntChunkVal c1 c2 = some (16 * hexDigitVal c1 + hexDigitVal c2) := by
  simp [litIntChunkVal, h1, h2]

theorem chunkPairs_hex (cs : List Char) (hhex : ∀ c ∈ cs, isHexDigitChar c = true)
    (heven : cs.length % 2 = 0) :
    ∃ bs, chunkPairs cs = .ok bs ∧ bs.length = cs.length / 2 ∧
      bs.flatMap byteToHexChars = cs.map Char.toLower ∧ ∀ b ∈ bs, b < 256 := by
  induction cs using chunkPairs.induct with
  | case1 c1 c2 rest b hb ih =>
    have h1 : isHexDigitChar c1 = true := hhex c1 (by simp)
    have h2 : isHexDigitChar c2 = true := hhex c2 (by simp)
    have hv1 := hexDigitVal_lt c1 h1
    have hv2 := hexDigitVal_lt c2 h2
    have hbval : b = 16 * hexDigitVal c1 + hexDigitVal c2 := by
      have := litIntChunkVal_hex h1 h2
      rw [hb] at this
      exact (Option.some_inj.mp this)
    obtain ⟨bs, hok, hlen, hflat, hlt⟩ :=
      ih (fun c hc => hhex c (by simp [hc]))
        (by simp only [List.length_cons] at heven; omega)
    refine ⟨b :: bs, ?_, ?_, ?_, ?_⟩
    · simp [chunkPairs, hb, hok, Except.map]
    · simp only [List.length_cons, hlen]
      omega
    · have hdiv : b / 16 = hexDigitVal c1 := by omega
      have hmod : b % 16 = hexDigitVal c2 := by omega
      simp only [List.flatMap_cons, byteToHexChars, hdiv, hmod, hflat,
        digitChar_hexDigitVal c1 h1, digitChar_hexDigitVal c2 h2, List.map_cons]
      rfl
    · intro x hx
      rcases List.mem_cons.mp hx with rfl | hx
      · omega
      · exact hlt x hx
  | case2 c1 c2 rest hb =>
    have h1 : isHexDigitChar c1 = true := hhex c1 (by simp)
    have h2 : isHexDigitChar c2 = true := hhex c2 (by simp)
    rw [litIntChunkVal_hex h1 h2] at hb
    exact absurd hb (by simp)
  | case3 x hx =>
    cases x with
    | nil => exact ⟨[], rfl, rfl, rfl, by simp⟩
    | cons c t =>
      cases t with
      | nil => simp at heven
      | cons c2 t2 => exact absurd rfl (hx c c2 t2)

/-- Claim C1: for every even-length string of hexadecimal digit characters
(upper or lower case), `hexadecimal_to_vec` succeeds, produces exactly
`len / 2` byte values, and re-encoding each byte back to two hex digits and
concatenating reproduces the input up to case normalization. -/
theorem hexToBytes_roundTrip (H : String)
    (hhex : ∀ c ∈ H.toList, isHexDigitChar c = true) (heven : H.length % 2 = 0) :
    ∃ bs, hexadecimalToVec H = .ok bs ∧ bs.length = H.length / 2 ∧
      bs.flatMap byteToHexChars = H.toList.map Char.toLower ∧ ∀ b ∈ bs, b < 256 := by
  have hlen : H.length = H.toList.length := rfl
  rw [hexadecimalToVec, if_pos (by rw [← hlen]; exact heven)]
  rw [hlen]
  exact chunkPairs_hex H.toList hhex (by rw [← hlen]; exact heven)

/-- Witness for C1 at the concrete input `"0aF3"`. -/
theorem hexToBytes_roundTrip_witness :
    (∀ c ∈ ("0aF3" : String).toList, isHexDigitChar c = true) ∧
      ("0aF3" : String).length % 2 = 0 ∧
      (∃ bs, hexadecimalToVec "0aF3" = .ok bs ∧ bs.length = ("0aF3" : String).length / 2 ∧
        bs.flatMap byteToHexChars = ("0aF3" : String).toList.map Char.toLower ∧
        ∀ b ∈ bs, b < 256) :=
  ⟨by decide, by decide, hexToBytes_roundTrip "0aF3" (by decide) (by decide)⟩

/-! ## Selection: the loop is the Selector followed by the Emitter -/

theorem runVectors_eq_mapM (m : String) (names : List String) (g : String) :
    ∀ (i : Nat) (ts : List TestVector),
      runVectors m names g i ts =
        (selectedGroup names g i ts).mapM (fun s => emitVector m s.1 s.2.1 s.2.2) := by
  intro i ts
  induction ts generalizing i with
  | nil => rfl
  | cons v rest ih =>
    by_cases hs : names.contains (effectiveName g v) = true
    · simp only [runVectors, selectedGroup, if_pos hs, List.mapM_cons]
      cases hemit : emitVector m (effectiveName g v) i v with
      | error e => simp [hemit, except_bind_error]
      | ok u => simp [hemit, except_bind_ok, ih]
    · simp only [runVectors, selectedGroup, if_neg hs]
      exact ih (i + 1)

theorem generate_eq_mapM (ps : List Packet) (names : List String) (m : String) :
    generateUnitTests ps names m =
      (selectedVectors ps names).mapM (fun s => emitVector m s.1 s.2.1 s.2.2) := by
  induction ps with
  | nil => rfl
  | cons p rest ih =>
    simp only [generateUnitTests, selectedVectors, List.map_cons, List.flatten_cons]
    rw [List.mapM_append, runVectors_eq_mapM, ih]
    rfl

theorem selectedGroup_nilNames (g : String) :
    ∀ (i : Nat) (ts : List TestVector), selectedGroup [] g i ts = [] := by
  intro i ts
  induction ts generalizing i with
  | nil => rfl
  | cons v rest ih =>
    simp [selectedGroup, ih]

theorem selectedVectors_nilNames (ps : List Packet) : selectedVectors ps [] = [] := by
  induction ps with
  | nil => rfl
  | cons p rest ih =>
    simp only [selectedVectors, List.map_cons, List.flatten_cons] at ih ⊢
    rw [selectedGroup_nilNames, ih, List.nil_append]

/-- Claim C2: a test unit is emitted for a vector if and only if its effective
name (the vector's own `packet` field if present, else the group's `name`) is
in the allow-list, membership being exact case-sensitive string equality
(`List.elem_iff`); the whole run equals emitting exactly the ordered
selection (outer packet order, inner vector order); the empty allow-list
yields an empty selection and an empty, error-free result. -/
theorem emission_matches_selection (ps : List Packet) (names : List String) (m : String) :
    generateUnitTests ps names m =
      (selectedVectors ps names).mapM (fun s => emitVector m s.1 s.2.1 s.2.2) ∧
    (∀ en : String, names.contains en = true ↔ en ∈ names) ∧
    selectedVectors ps [] = [] ∧
    generateUnitTests ps [] m = .ok [] := by
  refine ⟨generate_eq_mapM ps names m, fun en => List.elem_iff, selectedVectors_nilNames ps, ?_⟩
  rw [generate_eq_mapM, selectedVectors_nilNames]
  rfl

/-! ## Hex-to-bytes failure behaviour (claim C4) -/

/-- Claim C4 counterexample: the even-length string `"1_"` contains the
non-hexadecimal character `'_'`, yet `hexadecimal_to_vec` silently accepts it
(underscores are Rust integer-literal digit separators, so
`syn::parse_str::<syn::LitInt>("0x1_")` succeeds), producing the byte `0x1`
instead of failing with an EncodingError. -/
theorem hexToBytes_nonHex_accepted :
    ('_' ∈ ("1_" : String).toList ∧ isHexDigitChar '_' = false) ∧
      hexadecimalToVec "1_" = .ok [1] :=
  ⟨⟨by decide, by decide⟩, rfl⟩

/-- Claim C4 as amended: an odd-length `packed` string fails fatally with the
assert's fixed message `"Expects an even number of hex digits"` (the same for
every input, so it does not include the offending string); but a
non-hexadecimal character need not cause failure: a chunk of hex digits and
underscores with at least one digit is accepted silently as a Rust literal
with digit separators — e.g. `"1_"` yields the byte `0x1`. -/
theorem hexToBytes_failure_modes :
    (∀ H : String, H.length % 2 = 1 →
      hexadecimalToVec H = .error "Expects an even number of hex digits") ∧
    hexadecimalToVec "1_" = .ok [1] := by
  refine ⟨fun H hodd => ?_, rfl⟩
  have hlen : H.toList.length = H.length := rfl
  rw [hexadecimalToVec, if_neg]
  omega

/-- Witness for the amended C4 at the odd-length input `"abc"`. -/
theorem hexToBytes_failure_modes_witness :
    ("abc" : String).length % 2 = 1 ∧
      hexadecimalToVec "abc" = .error "Expects an even number of hex digits" :=
  ⟨by decide, hexToBytes_failure_modes.1 "abc" (by decide)⟩

/-! ## Fail-fast behaviour on selected vectors (claim C6) -/

theorem hexToBytes_odd (s : String) (hodd : s.length % 2 = 1) :
    hexadecimalToVec s = .error "Expects an even number of hex digits" := by
  have hlen : s.toList.length = s.length := rfl
  rw [hexadecimalToVec, if_neg]
  omega

theorem runVectors_abort (m : String) (names : List String) (g : String) :
    ∀ (i : Nat) (ts : List TestVector),
      (∃ v ∈ ts, names.contains (effectiveName g v) = true ∧ v.packed.length % 2 = 1) →
      ∃ e, runVectors m names g i ts = .error e := by
  intro i ts
  induction ts generalizing i with
  | nil => rintro ⟨v, hv, _⟩; exact absurd hv (List.not_mem_nil v)
  | cons v rest ih =>
    rintro ⟨w, hw, hsel, hodd⟩
    rcases List.mem_cons.mp hw with rfl | hw2
    · refine ⟨"Expects an even number of hex digits", ?_⟩
      simp only [runVectors, if_pos hsel]
      simp [emitVector, hexToBytes_odd w.packed hodd, except_bind_error]
    · by_cases hs : names.contains (effectiveName g v) = true
      · simp only [runVectors, if_pos hs]
        cases hemit : emitVector m (effectiveName g v) i v with
        | error e => exact ⟨e, by simp [hemit, except_bind_error]⟩
        | ok u =>
          obtain ⟨e, he⟩ := ih (i + 1) ⟨w, hw2, hsel, hodd⟩
          exact ⟨e, by simp [hemit, he, except_bind_ok, except_bind_error]⟩
      · simp only [runVectors, if_neg hs]
        exact ih (i + 1) ⟨w, hw2, hsel, hodd⟩

/-- Claim C6 counterexample: a document whose only vector violates the
`packed`-evenness invariant (`"abc"` has odd length) but is *not* selected
(allow-list `["Bar"]`, effective name `"Foo"`) makes the run complete
normally with an empty output instead of failing fatally — the tool
validates nothing about unselected vectors. -/
theorem unselected_invariant_not_fatal :
    ("abc" : String).length % 2 = 1 ∧
      generateUnitTests [⟨"Foo", [⟨"abc", Value.obj [], none⟩]⟩] ["Bar"] "pdl" = .ok [] :=
  ⟨by decide, rfl⟩

/-- Claim C6 as amended: if any *selected* vector has a `packed` string of
odd length, the entire run fails fatally (an error, nothing emitted) rather
than skipping that vector; vectors whose effective name is not in the
allow-list are skipped before any validation. -/
theorem selected_odd_packed_aborts (ps : List Packet) (names : List String) (m : String)
    (h : ∃ p ∈ ps, ∃ v ∈ p.tests,
      names.contains (effectiveName p.name v) = true ∧ v.packed.length % 2 = 1) :
    ∃ e, generateUnitTests ps names m = .error e := by
  induction ps with
  | nil =>
    obtain ⟨p, hp, _⟩ := h
    exact absurd hp (List.not_mem_nil p)
  | cons p rest ih =>
    obtain ⟨q, hq, hv⟩ := h
    rcases List.mem_cons.mp hq with rfl | hq2
    · obtain ⟨e, he⟩ := runVectors_abort m names q.name 0 q.tests hv
      exact ⟨e, by simp [generateUnitTests, he, except_bind_error]⟩
    · cases hrun : runVectors m names p.name 0 p.tests with
      | error e => exact ⟨e, by simp [generateUnitTests, hrun, except_bind_error]⟩
      | ok us =>
        obtain ⟨e, he⟩ := ih ⟨q, hq2, hv⟩
        exact ⟨e, by simp [generateUnitTests, hrun, he, except_bind_ok, except_bind_error]⟩

/-- Witness for the amended C6: a selected vector with odd-length `packed`
aborts the whole run. -/
theorem selected_odd_packed_aborts_witness :
    (∃ p ∈ [(⟨"Foo", [⟨"abc", Value.obj [], none⟩]⟩ : Packet)], ∃ v ∈ p.tests,
      (["Foo"] : List String).contains (effectiveName p.name v) = true ∧
        v.packed.length % 2 = 1) ∧
    ∃ e, generateUnitTests [⟨"Foo", [⟨"abc", Value.obj [], none⟩]⟩] ["Foo"] "pdl" =
      .error e :=
  ⟨⟨(⟨"Foo", [⟨"abc", Value.obj [], none⟩]⟩ : Packet), by simp,
      (⟨"abc", Value.obj [], none⟩ : TestVector), by simp, by decide, by decide⟩,
    selected_odd_packed_aborts _ _ "pdl"
      ⟨(⟨"Foo", [⟨"abc", Value.obj [], none⟩]⟩ : Packet), by simp,
        (⟨"abc", Value.obj [], none⟩ : TestVector), by simp, by decide, by decide⟩⟩

/-! ## Assertion generation (claims C3 and C5) -/

theorem emitVector_eq (m p : String) (i : Nat) (v : TestVector) :
    emitVector m p i v =
      match hexadecimalToVec v.packed with
      | .error e => .error e
      | .ok bs =>
        match v.unpacked.asObject with
        | none => .error ("Expected test vector object, found: " ++ v.unpacked.display)
        | some object =>
          match object.mapM assertionFor with
          | .error e => .error e
          | .ok asserts =>
            .ok ⟨testName p (i + 1) v.packed, bs, p ++ "Packet", m, asserts⟩ := by
  unfold emitVector
  cases hhex : hexadecimalToVec v.packed with
  | error e => simp only [hhex, except_bind_error]
  | ok bs =>
    cases hobj : v.unpacked.asObject with
    | none =>
      simp only [hhex, hobj, except_bind_ok]
      rfl
    | some object =>
      cases hM : object.mapM assertionFor with
      | error e => simp only [hhex, hobj, hM, except_bind_ok, except_bind_error]
      | ok asserts => simp only [hhex, hobj, hM, except_bind_ok, except_pure_eq]

theorem mapM_assertionFor (kvs : List (String × Value))
    (h : ∀ kv ∈ kvs, kv.2.asU64.isSome = true) :
    kvs.mapM assertionFor = .ok (kvs.map fun kv => ("get_" ++ kv.1, kv.2.asU64.getD 0)) := by
  induction kvs with
  | nil => rfl
  | cons kv rest ih =>
    obtain ⟨n, hn⟩ := Option.isSome_iff_exists.mp (h kv (by simp))
    rw [List.mapM_cons, ih (fun kv2 h2 => h kv2 (by simp [h2]))]
    simp [assertionFor, hn, except_bind_ok, except_pure_eq]

theorem mapM_assertionFor_firstBad (pre : List (String × Value)) (k : String) (bad : Value)
    (post : List (String × Value)) (hpre : ∀ kv ∈ pre, kv.2.asU64.isSome = true)
    (hbad : bad.asU64 = none) :
    (pre ++ (k, bad) :: post).mapM assertionFor =
      .error ("Expected u64 for " ++ rustDebugStr k ++ " key, got " ++ bad.display) := by
  induction pre with
  | nil =>
    rw [List.nil_append, List.mapM_cons]
    simp [assertionFor, hbad, except_bind_error, throw, throwThe, MonadExceptOf.throw]
  | cons kv rest ih =>
    obtain ⟨n, hn⟩ := Option.isSome_iff_exists.mp (hpre kv (by simp))
    rw [List.cons_append, List.mapM_cons, ih (fun kv2 h2 => hpre kv2 (by simp [h2]))]
    simp [assertionFor, hn, except_bind_ok, except_bind_error]

/-- Claim C3: a selected vector whose `unpacked` is an object of
u64-representable values contributes exactly one test unit, whose assertion
list has exactly one `(get_<key>, value)` entry per key of the object, in the
object's iteration order; the rest of the run is unaffected. -/
theorem selected_vector_assertions (m : String) (names : List String) (g : String)
    (i : Nat) (v : TestVector) (rest : List TestVector)
    (kvs : List (String × Value)) (bs : List Nat)
    (hsel : names.contains (effectiveName g v) = true)
    (hobj : v.unpacked = Value.obj kvs)
    (hhex : hexadecimalToVec v.packed = .ok bs)
    (hu64 : ∀ kv ∈ kvs, kv.2.asU64.isSome = true) :
    runVectors m names g i (v :: rest) =
      (runVectors m names g (i + 1) rest).map (fun us =>
        ({ name := testName (effectiveName g v) (i + 1) v.packed,
           packedBytes := bs,
           packetType := effectiveName g v ++ "Packet",
           moduleName := m,
           assertions := kvs.map fun kv => ("get_" ++ kv.1, kv.2.asU64.getD 0) } :
          TestUnit) :: us) := by
  have hobjAs : v.unpacked.asObject = some kvs := by rw [hobj]; rfl
  have hemit : emitVector m (effectiveName g v) i v =
      .ok { name := testName (effectiveName g v) (i + 1) v.packed,
            packedBytes := bs,
            packetType := effectiveName g v ++ "Packet",
            moduleName := m,
            assertions := kvs.map fun kv => ("get_" ++ kv.1, kv.2.asU64.getD 0) } := by
    simp only [emitVector_eq, hhex, hobjAs, mapM_assertionFor kvs hu64]
  simp only [runVectors, if_pos hsel, hemit, except_bind_ok]
  cases hrun : runVectors m names g (i + 1) rest with
  | error e => rfl
  | ok us => rfl

/-- Witness for C3: one selected vector with a two-key object yields one unit
with exactly the two assertions in key order. -/
theorem selected_vector_assertions_witness :
    ((["Foo"] : List String).contains
        (effectiveName "Foo" ⟨"0102", Value.obj [("x", Value.posInt 1), ("y", Value.posInt 2)],
          none⟩) = true) ∧
    (∀ kv ∈ [("x", Value.posInt 1), ("y", Value.posInt 2)], (kv.2.asU64).isSome = true) ∧
    runVectors "pdl" ["Foo"] "Foo" 0
        [⟨"0102", Value.obj [("x", Value.posInt 1), ("y", Value.posInt 2)], none⟩] =
      (runVectors "pdl" ["Foo"] "Foo" 1 []).map (fun us =>
        ({ name := testName (effectiveName "Foo"
              ⟨"0102", Value.obj [("x", Value.posInt 1), ("y", Value.posInt 2)], none⟩)
              (0 + 1)
              (TestVector.packed ⟨"0102", Value.obj [("x", Value.posInt 1),
                ("y", Value.posInt 2)], none⟩),
           packedBytes := [1, 2],
           packetType := effectiveName "Foo"
              ⟨"0102", Value.obj [("x", Value.posInt 1), ("y", Value.posInt 2)], none⟩
              ++ "Packet",
           moduleName := "pdl",
           assertions := [("x", Value.posInt 1), ("y", Value.posInt 2)].map
              fun kv => ("get_" ++ kv.1, kv.2.asU64.getD 0) } : TestUnit) :: us) :=
  ⟨by decide, by decide,
    selected_vector_assertions "pdl" ["Foo"] "Foo" 0
      ⟨"0102", Value.obj [("x", Value.posInt 1), ("y", Value.posInt 2)], none⟩ []
      [("x", Value.posInt 1), ("y", Value.posInt 2)] [1, 2]
      (by decide) rfl rfl (by decide)⟩

/-- Claim C5 counterexample: with packet `"Foo"` selected and field `"x"`
holding the non-u64 value `-1`, the run aborts with the message
`Expected u64 for "x" key, got -1`, which names the offending key but does
not name the offending packet `Foo` anywhere. -/
theorem u64_error_message_omits_packet :
    generateUnitTests [⟨"Foo", [⟨"0102", Value.obj [("x", Value.negInt 1)], none⟩]⟩]
        ["Foo"] "pdl" = .error "Expected u64 for \"x\" key, got -1" ∧
    ¬ (("Foo" : String).toList <:+:
        ("Expected u64 for \"x\" key, got -1" : String).toList) :=
  ⟨rfl, by decide⟩

/-- Claim C5 as amended: a selected vector whose `unpacked` is not an object,
or whose first non-u64-representable field value is reached, aborts the whole
run with a fatal error rather than truncating; the message shows the
offending value and — for field errors — names the offending field/key, but
does not name the packet. -/
theorem vector_shape_errors (m p g : String) (names : List String) (i : Nat)
    (v : TestVector) (rest : List TestVector) (bs : List Nat) :
    (v.unpacked.asObject = none → hexadecimalToVec v.packed = .ok bs →
      emitVector m p i v =
        .error ("Expected test vector object, found: " ++ v.unpacked.display)) ∧
    (∀ (pre : List (String × Value)) (k : String) (bad : Value)
        (post : List (String × Value)),
      v.unpacked = Value.obj (pre ++ (k, bad) :: post) →
      hexadecimalToVec v.packed = .ok bs →
      (∀ kv ∈ pre, kv.2.asU64.isSome = true) → bad.asU64 = none →
      emitVector m p i v =
        .error ("Expected u64 for " ++ rustDebugStr k ++ " key, got " ++ bad.display)) ∧
    (∀ e, names.contains (effectiveName g v) = true →
      emitVector m (effectiveName g v) i v = .error e →
      runVectors m names g i (v :: rest) = .error e) := by
  refine ⟨fun hobj hhex => ?_, fun pre k bad post hobj hhex hpre hbad => ?_,
    fun e hsel hemit => ?_⟩
  · simp only [emitVector_eq, hhex, hobj]
  · have hobjAs : v.unpacked.asObject = some (pre ++ (k, bad) :: post) := by rw [hobj]; rfl
    simp only [emitVector_eq, hhex, hobjAs, mapM_assertionFor_firstBad pre k bad post hpre hbad]
  · simp only [runVectors, if_pos hsel, hemit, except_bind_error]

/-- Witness for the amended C5: a selected vector with field `"x"` equal to
`-1` aborts with the key-naming message. -/
theorem vector_shape_errors_witness :
    ((⟨"0102", Value.obj [("x", Value.negInt 1)], none⟩ : TestVector).unpacked =
      Value.obj ([] ++ ("x", Value.negInt 1) :: [])) ∧
    hexadecimalToVec "0102" = .ok [1, 2] ∧
    (Value.negInt 1).asU64 = none ∧
    emitVector "pdl" "Foo" 0 ⟨"0102", Value.obj [("x", Value.negInt 1)], none⟩ =
      .error ("Expected u64 for " ++ rustDebugStr "x" ++ " key, got " ++
        (Value.negInt 1).display) :=
  ⟨rfl, rfl, rfl,
    (vector_shape_errors "pdl" "Foo" "Foo" ["Foo"] 0
      ⟨"0102", Value.obj [("x", Value.negInt 1)], none⟩ [] [1, 2]).2.1
      [] "x" (Value.negInt 1) [] rfl rfl (by simp) rfl⟩

/-- Claim C7: the canonical example — packet `Foo`, vector `packed = "0102"`,
`unpacked = {"x": 1}`, allow-list `{"Foo"}` — emits exactly one unit which
holds the byte sequence `[0x01, 0x02]`, addresses the decoder type
`FooPacket` (effective name plus the fixed `Packet` suffix) under the
caller-supplied module qualifier, and asserts `get_x() == 1`.  (The unit's
fixed template also invokes `parse` on the bytes and unwraps the result; see
`TestUnit`.) -/
theorem canonical_example (m : String) :
    generateUnitTests [⟨"Foo", [⟨"0102", Value.obj [("x", Value.posInt 1)], none⟩]⟩]
        ["Foo"] m =
      .ok [⟨"Foo_vector_1_0x0102", [1, 2], "FooPacket", m, [("get_x", 1)]⟩] := rfl

/-! ## Test-name uniqueness (claim C8) -/

theorem emitVector_ok_name {m p : String} {i : Nat} {v : TestVector} {u : TestUnit}
    (h : emitVector m p i v = .ok u) : u.name = testName p (i + 1) v.packed := by
  rw [emitVector_eq] at h
  split at h
  · exact absurd h (by simp)
  · split at h
    · exact absurd h (by simp)
    · split at h
      · exact absurd h (by simp)
      · injection h with h2
        rw [← h2]

/-- Claim C8: two selected vectors with the same effective packet name and
the same `packed` string but different 0-based positions `i ≠ j` in their
group's test list receive distinct generated test names: each name is the
deterministic concatenation of the effective name, the token `_vector_`, the
1-based ordinal `i + 1`, and `_0x` plus the exact `packed` string, and the
decimal ordinal makes the names injective in the position. -/
theorem test_names_distinct (m en : String) (i j : Nat) (v w : TestVector)
    (u1 u2 : TestUnit) (h1 : emitVector m en i v = .ok u1)
    (h2 : emitVector m en j w = .ok u2) (hp : v.packed = w.packed) (hij : i ≠ j) :
    u1.name ≠ u2.name := by
  rw [emitVector_ok_name h1, emitVector_ok_name h2, hp]
  intro hcontra
  have h3 := testName_ordinal_inj hcontra
  omega

/-- Witness for C8: the same vector contents at positions 0 and 1 yield the
distinct names `Foo_vector_1_0x0102` and `Foo_vector_2_0x0102`. -/
theorem test_names_distinct_witness :
    emitVector "pdl" "Foo" 0 ⟨"0102", Value.obj [("x", Value.posInt 1)], none⟩ =
      .ok ⟨"Foo_vector_1_0x0102", [1, 2], "FooPacket", "pdl", [("get_x", 1)]⟩ ∧
    emitVector "pdl" "Foo" 1 ⟨"0102", Value.obj [("x", Value.posInt 1)], none⟩ =
      .ok ⟨"Foo_vector_2_0x0102", [1, 2], "FooPacket", "pdl", [("get_x", 1)]⟩ ∧
    (0 : Nat) ≠ 1 ∧
    ("Foo_vector_1_0x0102" : String) ≠ "Foo_vector_2_0x0102" :=
  ⟨rfl, rfl, by decide,
    test_names_distinct "pdl" "Foo" 0 1
      ⟨"0102", Value.obj [("x", Value.posInt 1)], none⟩
      ⟨"0102", Value.obj [("x", Value.posInt 1)], none⟩
      ⟨"Foo_vector_1_0x0102", [1, 2], "FooPacket", "pdl", [("get_x", 1)]⟩
      ⟨"Foo_vector_2_0x0102", [1, 2], "FooPacket", "pdl", [("get_x", 1)]⟩
      rfl rfl rfl (by decide)⟩

/-! ## Unselected vectors are never validated (claim C9) -/

theorem runVectors_unselected_swap (m : String) (names : List String) (g : String) :
    ∀ (i : Nat) (ts1 : List TestVector) (v v2 : TestVector) (ts2 : List TestVector),
      v.packet = v2.packet →
      names.contains (effectiveName g v) = false →
      runVectors m names g i (ts1 ++ v :: ts2) = runVectors m names g i (ts1 ++ v2 :: ts2) := by
  intro i ts1
  induction ts1 generalizing i with
  | nil =>
    intro v v2 ts2 hpk hns
    have hen : effectiveName g v2 = effectiveName g v := by simp [effectiveName, hpk]
    have hns2 : ¬ (names.contains (effectiveName g v) = true) := by rw [hns]; simp
    simp only [List.nil_append, runVectors, hen]
    rw [if_neg hns2, if_neg hns2]
  | cons w rest ih =>
    intro v v2 ts2 hpk hns
    simp only [List.cons_append, runVectors]
    by_cases hw : names.contains (effectiveName g w) = true
    · rw [if_pos hw, if_pos hw]
      cases hemit : emitVector m (effectiveName g w) i w with
      | error e => simp [hemit, except_bind_error]
      | ok u => simp [hemit, except_bind_ok, ih (i + 1) v v2 ts2 hpk hns]
    · rw [if_neg hw, if_neg hw]
      exact ih (i + 1) v v2 ts2 hpk hns

/-- Claim C9: a vector whose effective name is not in the allow-list is
skipped before any validation — the run's entire result is unchanged when
that vector's `packed` and `unpacked` contents are replaced arbitrarily
(only its `packet` override field matters, as it determines selection); and
concretely, a document whose unselected vector has an odd-length,
non-hexadecimal `packed` and a non-object `unpacked` completes normally,
emitting exactly the units of the selected vectors. -/
theorem unselected_not_validated (m : String) (names : List String) :
    (∀ (ps1 ps2 : List Packet) (g : String) (ts1 ts2 : List TestVector) (v v2 : TestVector),
      v.packet = v2.packet →
      names.contains (effectiveName g v) = false →
      generateUnitTests (ps1 ++ ⟨g, ts1 ++ v :: ts2⟩ :: ps2) names m =
        generateUnitTests (ps1 ++ ⟨g, ts1 ++ v2 :: ts2⟩ :: ps2) names m) ∧
    generateUnitTests
        [⟨"Foo", [⟨"abc", Value.str "bad", some "Other"⟩,
          ⟨"0102", Value.obj [("x", Value.posInt 1)], none⟩]⟩] ["Foo"] "pdl" =
      .ok [⟨"Foo_vector_2_0x0102", [1, 2], "FooPacket", "pdl", [("get_x", 1)]⟩] := by
  refine ⟨?_, rfl⟩
  intro ps1
  induction ps1 with
  | nil =>
    intro ps2 g ts1 ts2 v v2 hpk hns
    simp only [List.nil_append, generateUnitTests]
    rw [runVectors_unselected_swap m names g 0 ts1 v v2 ts2 hpk hns]
  | cons p rest ih =>
    intro ps2 g ts1 ts2 v v2 hpk hns
    simp only [List.cons_append, generateUnitTests]
    cases hrun : runVectors m names p.name 0 p.tests with
    | error e => simp [hrun, except_bind_error]
    | ok us => simp [hrun, except_bind_ok, ih ps2 g ts1 ts2 v v2 hpk hns]

/-- Witness for C9: replacing the corrupt contents of the unselected vector
(effective name `"Other"`, odd non-hex `packed`, non-object `unpacked`) by
benign ones leaves the run's result unchanged. -/
theorem unselected_not_validated_witness :
    ((⟨"abc", Value.str "bad", some "Other"⟩ : TestVector).packet =
      (⟨"00", Value.obj [], some "Other"⟩ : TestVector).packet) ∧
    (["Foo"] : List String).contains
      (effectiveName "Foo" ⟨"abc", Value.str "bad", some "Other"⟩) = false ∧
    generateUnitTests
        [⟨"Foo", [] ++ (⟨"abc", Value.str "bad", some "Other"⟩ : TestVector) ::
          [⟨"0102", Value.obj [("x", Value.posInt 1)], none⟩]⟩] ["Foo"] "pdl" =
      generateUnitTests
        [⟨"Foo", [] ++ (⟨"00", Value.obj [], some "Other"⟩ : TestVector) ::
          [⟨"0102", Value.obj [("x", Value.posInt 1)], none⟩]⟩] ["Foo"] "pdl" :=
  ⟨rfl, by decide,
    (unselected_not_validated "pdl" ["Foo"]).1 [] [] "Foo" []
      [⟨"0102", Value.obj [("x", Value.posInt 1)], none⟩]
      ⟨"abc", Value.str "bad", some "Other"⟩ ⟨"00", Value.obj [], some "Other"⟩
      rfl (by decide)⟩

/-! ## The compiled-in allow-list of `main` (claim C10) -/

/-- Claim C10: `main` always passes the fixed compiled-in allow-list
`["Packet_Scalar_Field"]` to the generation pipeline; membership in that
singleton list is exactly equality with `"Packet_Scalar_Field"`, so the run
emits a unit for a vector precisely when it is in the selection by that
name (the pipeline equals emitting the ordered selection). -/
theorem main_fixed_allowlist :
    mainPacketNames = ["Packet_Scalar_Field"] ∧
    (∀ (ps : List Packet) (m : String),
      mainGenerate ps m = generateUnitTests ps ["Packet_Scalar_Field"] m) ∧
    (∀ en : String, mainPacketNames.contains en = true ↔ en = "Packet_Scalar_Field") ∧
    (∀ (ps : List Packet) (m : String),
      mainGenerate ps m =
        (selectedVectors ps mainPacketNames).mapM
          (fun s => emitVector m s.1 s.2.1 s.2.2)) := by
  refine ⟨rfl, fun ps m => rfl, fun en => ?_,
    fun ps m => generate_eq_mapM ps mainPacketNames m⟩
  constructor
  · intro h
    have := List.elem_iff.mp h
    simpa [mainPacketNames] using this
  · intro h
    subst h
    decide

end CanonicalTests
